import Mathlib

/-!
Verification of the noblenewtonia decompression CLI.

Shallow embedding of the repository's core pipeline:
* `src/lib/decompressor.js` — `decompressData`, `tryAllFormats`, `tryDecompressRaw`;
* `src/lib/encoding.js` — `decodeBase64`, `encodeBase64` (Node `Buffer` base64 semantics);
* `src/commands/parse-json.js` — record extraction, per-item processing loop,
  `formatFilename`, `sampleItems`, empty-input handling;
* the legacy parse-json variant shipped in the repository (the file handling the
  `product.Value` nested shape).

The external pako codecs (`ungzip`, `inflate`, `inflateRaw`) are modelled as
abstract functions of type `CodecFn`: each either returns decompressed bytes or
throws with an error message, which is all the repository's control flow observes.
Bytes are `List Nat` (each entry a byte value). Log output relevant to the claims
(the verbose/debug lines of `tryAllFormats`) is returned explicitly.
-/

namespace Noble

/-- Byte sequences (JS `Buffer` / `Uint8Array` contents). -/
abbrev Bytes := List Nat

/-- A pako codec: returns decompressed bytes, or throws with a message. -/
abbrev CodecFn := Bytes → Except String Bytes

/-- Model of a thrown JS `Error` object. `new Error(msg)` sets only `message`;
`formatField`/`attempts` model extra properties an error object could carry
(the spec's `DecompressionError{format, attempts}`), which `new Error` leaves unset. -/
structure JsError where
  message : String
  formatField : Option String := none
  attempts : Option (List String) := none
deriving Repr, DecidableEq

/-- The CLI options threaded through the decompressor (`options` in the JS). -/
structure CliOptions where
  format : String := "auto"
  verbose : Bool := false
  debug : Bool := false
  quiet : Bool := false
deriving Repr

/-- Model of `logVerbose` (src/lib/logger.js): emitted only when `options.verbose`. -/
def logVerboseLines (opts : CliOptions) (lines : List String) : List String :=
  if opts.verbose then lines else []

/-- Model of `logDebug` (src/lib/logger.js): emitted only when `options.debug`. -/
def logDebugLines (opts : CliOptions) (lines : List String) : List String :=
  if opts.debug then lines else []

/-- Embedding of `tryAllFormats` (src/lib/decompressor.js:87-120): try gzip, then zlib-wrapped
deflate, then raw deflate; return the first success.  On total failure the three
per-format messages are pushed (in order) onto a local `errors` array that is only
debug-logged, and a plain `new Error("Failed to decompress with any format")` is
thrown.  Result: (thrown-or-returned value, log lines emitted). -/
def tryAllFormats (gz df raw : CodecFn) (input : Bytes) (opts : CliOptions) :
    Except JsError Bytes × List String :=
  match gz input with
  | .ok r => (.ok r, logVerboseLines opts ["Successfully decompressed with gzip format"])
  | .error gzipError =>
    match df input with
    | .ok r => (.ok r, logVerboseLines opts ["Successfully decompressed with deflate format"])
    | .error inflateError =>
      match raw input with
      | .ok r =>
        (.ok r, logVerboseLines opts ["Successfully decompressed with raw deflate format"])
      | .error rawError =>
        (.error { message := "Failed to decompress with any format" },
         logDebugLines opts
           ["All decompression attempts failed:",
            "- gzip: " ++ gzipError,
            "- deflate: " ++ inflateError,
            "- raw: " ++ rawError])

/-- Embedding of `tryDecompressRaw` (src/lib/decompressor.js:69-78): run `inflateRaw`,
debug-log and rethrow on failure. -/
def tryDecompressRaw (raw : CodecFn) (input : Bytes) (opts : CliOptions) :
    Except JsError Bytes × List String :=
  match raw input with
  | .ok r => (.ok r, logDebugLines opts ["Successfully decompressed with inflateRaw"])
  | .error err => (.error { message := err }, logDebugLines opts ["Raw decompression error details:"])

/-- Embedding of `decompressData` (src/lib/decompressor.js:33-47): dispatch on `options.format`.
The `switch` shares one branch for `case "auto"` and `default`, so any format
string other than "raw"/"gzip"/"deflate" runs the auto trial chain. -/
def decompressData (gz df raw : CodecFn) (input : Bytes) (opts : CliOptions) :
    Except JsError Bytes × List String :=
  if opts.format = "raw" then tryDecompressRaw raw input opts
  else if opts.format = "gzip" then
    match gz input with
    | .ok r => (.ok r, [])
    | .error e => (.error { message := e }, [])
  else if opts.format = "deflate" then
    match df input with
    | .ok r => (.ok r, [])
    | .error e => (.error { message := e }, [])
  else tryAllFormats gz df raw input opts

/-- Modelled from the spec: "`format = auto`: try, in this fixed order: gzip, then
deflate, then raw-deflate. Return the first success."  First success of an ordered
codec list, `none` when every codec fails. -/
def firstCodecSuccess : List CodecFn → Bytes → Option Bytes
  | [], _ => none
  | c :: cs, input =>
    match c input with
    | .ok r => some r
    | .error _ => firstCodecSuccess cs input

/-- C1: with format `auto`, `decompressData` returns the first success of the
fixed codec order gzip, deflate, raw; in particular when gzip succeeds its result
is returned and the deflate/raw codecs are irrelevant to the outcome. -/
theorem decompressData_auto_first_success
    (gz df raw : CodecFn) (input : Bytes) (opts : CliOptions)
    (hfmt : opts.format = "auto") :
    (decompressData gz df raw input opts).1.toOption = firstCodecSuccess [gz, df, raw] input
    ∧ ∀ r, gz input = .ok r →
        (decompressData gz df raw input opts).1 = .ok r
        ∧ ∀ df' raw', (decompressData gz df' raw' input opts).1 = .ok r := by
  have hr : opts.format ≠ "raw" := by rw [hfmt]; decide
  have hg : opts.format ≠ "gzip" := by rw [hfmt]; decide
  have hd : opts.format ≠ "deflate" := by rw [hfmt]; decide
  simp only [decompressData, if_neg hr, if_neg hg, if_neg hd]
  constructor
  · cases hgz : gz input with
    | ok r => simp [tryAllFormats, hgz, firstCodecSuccess, Except.toOption]
    | error e =>
      cases hdf : df input with
      | ok r => simp [tryAllFormats, hgz, hdf, firstCodecSuccess, Except.toOption]
      | error e' =>
        cases hraw : raw input with
        | ok r => simp [tryAllFormats, hgz, hdf, hraw, firstCodecSuccess, Except.toOption]
        | error e'' => simp [tryAllFormats, hgz, hdf, hraw, firstCodecSuccess, Except.toOption]
  · intro r hgz
    refine ⟨by simp [tryAllFormats, hgz], ?_⟩
    intro df' raw'
    simp [tryAllFormats, hgz]

/-- Witness for C1 at concrete codecs: gzip succeeds with `[7]`, the others fail. -/
theorem decompressData_auto_first_success_witness :
    (decompressData (fun _ => .ok [7]) (fun _ => .error "d") (fun _ => .error "r")
      [0] { format := "auto" }).1 = .ok [7] :=
  ((decompressData_auto_first_success (fun _ => .ok [7]) (fun _ => .error "d")
      (fun _ => .error "r") [0] { format := "auto" } rfl).2 [7] rfl).1

/-- C2 counterexample: when all three codecs fail, the thrown error is the plain
`Error("Failed to decompress with any format")` — it carries no `format: "any"`
field and no `attempts` list. -/
theorem tryAllFormats_error_carries_no_attempts :
    (tryAllFormats (fun _ => .error "eg") (fun _ => .error "ed") (fun _ => .error "er")
        [] { debug := true }).1
      = .error { message := "Failed to decompress with any format",
                 formatField := none, attempts := none }
    ∧ ¬ ∃ e, (tryAllFormats (fun _ => .error "eg") (fun _ => .error "ed")
          (fun _ => .error "er") [] { debug := true }).1 = .error e
        ∧ e.formatField = some "any" ∧ e.attempts = some ["eg", "ed", "er"] := by
  constructor
  · rfl
  · rintro ⟨e, he, hf, _⟩
    have : e = { message := "Failed to decompress with any format",
                 formatField := none, attempts := none } := by
      have h := he.symm.trans (rfl :
        (tryAllFormats (fun _ => .error "eg") (fun _ => .error "ed") (fun _ => .error "er")
          [] { debug := true }).1
        = .error { message := "Failed to decompress with any format",
                   formatField := none, attempts := none })
      exact (Except.error.injEq _ _).mp h
    rw [this] at hf
    simp at hf

/-- C2 (amended): when all three codecs fail, `tryAllFormats` throws a plain error
with message "Failed to decompress with any format" (no format field, no attempts
list attached); the three per-format failure messages are accumulated in the fixed
order gzip, deflate, raw and emitted only to the debug log. -/
theorem tryAllFormats_all_fail_plain_error
    (gz df raw : CodecFn) (input : Bytes) (opts : CliOptions) (g d r : String)
    (hg : gz input = .error g) (hd : df input = .error d) (hr : raw input = .error r)
    (hdebugflag : opts.debug = true) :
    tryAllFormats gz df raw input opts =
      (.error { message := "Failed to decompress with any format",
                formatField := none, attempts := none },
       ["All decompression attempts failed:",
        "- gzip: " ++ g, "- deflate: " ++ d, "- raw: " ++ r]) := by
  simp [tryAllFormats, hg, hd, hr, logDebugLines, hdebugflag]

/-- Witness for C2's amended theorem at concrete failing codecs. -/
theorem tryAllFormats_all_fail_plain_error_witness :
    tryAllFormats (fun _ => .error "eg") (fun _ => .error "ed") (fun _ => .error "er")
        [3] { debug := true } =
      (.error { message := "Failed to decompress with any format",
                formatField := none, attempts := none },
       ["All decompression attempts failed:",
        "- gzip: eg", "- deflate: ed", "- raw: er"]) :=
  tryAllFormats_all_fail_plain_error _ _ _ [3] _ "eg" "ed" "er" rfl rfl rfl rfl

/-- C10: any `options.format` outside {auto, raw, gzip, deflate} falls into the
`switch`'s shared `case "auto": default:` branch, so `decompressData` behaves
exactly as with format "auto" (no unknown-format error). -/
theorem decompressData_unknown_format_is_auto
    (gz df raw : CodecFn) (input : Bytes) (opts : CliOptions)
    (h1 : opts.format ≠ "raw") (h2 : opts.format ≠ "gzip") (h3 : opts.format ≠ "deflate") :
    decompressData gz df raw input opts
      = decompressData gz df raw input { opts with format := "auto" } := by
  simp only [decompressData, if_neg h1, if_neg h2, if_neg h3]
  rw [if_neg (by decide), if_neg (by decide), if_neg (by decide)]
  rfl

/-- Witness for C10 at the misspelled format string "gzipp". -/
theorem decompressData_unknown_format_is_auto_witness :
    decompressData (fun _ => .ok [1]) (fun _ => .error "d") (fun _ => .error "r")
        [9] { format := "gzipp" }
      = decompressData (fun _ => .ok [1]) (fun _ => .error "d") (fun _ => .error "r")
        [9] { format := "auto" } :=
  decompressData_unknown_format_is_auto _ _ _ [9] { format := "gzipp" }
    (by decide) (by decide) (by decide)

/-! ### Encoding codec (src/lib/encoding.js, Node `Buffer` base64 semantics)

`decodeBase64` is `Buffer.from(base64String, "base64")`: for a string argument it
never throws; Node's lenient decoder accepts the URL-safe alphabet, silently skips
characters outside the base64 alphabet and stops at the first `=`.  `encodeBase64`
is `buffer.toString("base64")`: standard RFC 4648 encoding with padding. -/

/-- The standard base64 alphabet, value `v` at index `v`. -/
def b64Alphabet : List Char :=
  "ABCDEFGHIJKLMNOPQRSTUVWXYZabcdefghijklmnopqrstuvwxyz0123456789+/".toList

/-- Value of a base64 digit; Node also accepts the URL-safe aliases `-` and `_`.
`none` for characters outside the alphabet. -/
def b64Val (c : Char) : Option Nat :=
  if 'A' ≤ c ∧ c ≤ 'Z' then some (c.toNat - 65)
  else if 'a' ≤ c ∧ c ≤ 'z' then some (c.toNat - 97 + 26)
  else if '0' ≤ c ∧ c ≤ '9' then some (c.toNat - 48 + 52)
  else if c = '+' ∨ c = '-' then some 62
  else if c = '/' ∨ c = '_' then some 63
  else none

/-- Base64 digit character for a 6-bit value. -/
def b64Chr (v : Nat) : Char := b64Alphabet.getD v 'A'

/-- RFC 4648 encoding, three input bytes per four output digits, `=`-padded. -/
def encodeB64Chunks : Bytes → List Char
  | [] => []
  | [b0] => [b64Chr (b0 / 4), b64Chr (b0 % 4 * 16), '=', '=']
  | [b0, b1] => [b64Chr (b0 / 4), b64Chr (b0 % 4 * 16 + b1 / 16), b64Chr (b1 % 16 * 4), '=']
  | b0 :: b1 :: b2 :: rest =>
    b64Chr (b0 / 4) :: b64Chr (b0 % 4 * 16 + b1 / 16) :: b64Chr (b1 % 16 * 4 + b2 / 64) ::
      b64Chr (b2 % 64) :: encodeB64Chunks rest

/-- Embedding of `encodeBase64` (src/lib/encoding.js:15-17). -/
def encodeBase64 (b : Bytes) : String := String.mk (encodeB64Chunks b)

/-- Digit values seen by Node's decoder: stop at the first `=`, skip invalid chars. -/
def nodeB64DecodeVals (s : List Char) : List Nat :=
  (s.takeWhile (fun c => c != '=')).filterMap b64Val

/-- Reassemble bytes from 6-bit values; a trailing 2- or 3-value group yields the
1 or 2 bytes it fully determines, a lone trailing value is dropped. -/
def valsToBytes : List Nat → Bytes
  | v0 :: v1 :: v2 :: v3 :: rest =>
    (v0 * 4 + v1 / 16) :: (v1 % 16 * 16 + v2 / 4) :: (v2 % 4 * 64 + v3) :: valsToBytes rest
  | [v0, v1] => [v0 * 4 + v1 / 16]
  | [v0, v1, v2] => [v0 * 4 + v1 / 16, v1 % 16 * 16 + v2 / 4]
  | _ => []

/-- Bytes produced by Node's lenient base64 decoding of a character sequence. -/
def nodeB64Decode (s : List Char) : Bytes := valsToBytes (nodeB64DecodeVals s)

/-- Embedding of `decodeBase64` (src/lib/encoding.js:6-8): `Buffer.from(s, "base64")` — total,
never throws for a string argument. -/
def decodeBase64 (s : String) : Except JsError Bytes := .ok (nodeB64Decode s.toList)

theorem b64Chr_ne_eq (v : Nat) : (b64Chr v != '=') = true := by
  by_cases h : v < 64
  · exact (by decide : ∀ w, w < 64 → (b64Chr w != '=') = true) v h
  · have hlen : b64Alphabet.length ≤ v := by
      have : b64Alphabet.length = 64 := by decide
      omega
    unfold b64Chr
    rw [List.getD_eq_default _ _ hlen]
    decide

theorem b64Val_b64Chr (v : Nat) (h : v < 64) : b64Val (b64Chr v) = some v :=
  (by decide : ∀ w, w < 64 → b64Val (b64Chr w) = some w) v h

theorem takeWhile_append_of_forall {α : Type} (p : α → Bool) (l1 l2 : List α)
    (h : ∀ x ∈ l1, p x = true) :
    (l1 ++ l2).takeWhile p = l1 ++ l2.takeWhile p := by
  induction l1 with
  | nil => simp
  | cons a t ih =>
    have ha : p a = true := h a (by simp)
    simp only [List.cons_append, List.takeWhile_cons, ha, if_true]
    rw [ih (fun x hx => h x (by simp [hx]))]

/-- Core round-trip: Node's decoder inverts the RFC 4648 encoder on byte input. -/
theorem nodeB64Decode_encodeB64Chunks :
    ∀ (b : Bytes), (∀ x ∈ b, x < 256) → nodeB64Decode (encodeB64Chunks b) = b
  | [], _ => rfl
  | [b0], h => by
    have h0 : b0 < 256 := h b0 (by simp)
    have e0 : b64Val (b64Chr (b0 / 4)) = some (b0 / 4) := b64Val_b64Chr _ (by omega)
    have e1 : b64Val (b64Chr (b0 % 4 * 16)) = some (b0 % 4 * 16) := b64Val_b64Chr _ (by omega)
    simp only [encodeB64Chunks, nodeB64Decode, nodeB64DecodeVals, List.takeWhile_cons,
      b64Chr_ne_eq, if_true]
    norm_num
    simp only [List.filterMap_cons, e0, e1, List.filterMap_nil, valsToBytes]
    congr 1
    omega
  | [b0, b1], h => by
    have h0 : b0 < 256 := h b0 (by simp)
    have h1 : b1 < 256 := h b1 (by simp)
    have e0 : b64Val (b64Chr (b0 / 4)) = some (b0 / 4) := b64Val_b64Chr _ (by omega)
    have e1 : b64Val (b64Chr (b0 % 4 * 16 + b1 / 16)) = some (b0 % 4 * 16 + b1 / 16) :=
      b64Val_b64Chr _ (by omega)
    have e2 : b64Val (b64Chr (b1 % 16 * 4)) = some (b1 % 16 * 4) := b64Val_b64Chr _ (by omega)
    simp only [encodeB64Chunks, nodeB64Decode, nodeB64DecodeVals, List.takeWhile_cons,
      b64Chr_ne_eq, if_true]
    norm_num
    simp only [List.filterMap_cons, e0, e1, e2, List.filterMap_nil, valsToBytes,
      List.cons.injEq, and_true]
    exact ⟨by omega, by omega⟩
  | b0 :: b1 :: b2 :: b3 :: rest, h => by
    have h0 : b0 < 256 := h b0 (by simp)
    have h1 : b1 < 256 := h b1 (by simp)
    have h2 : b2 < 256 := h b2 (by simp)
    have ih := nodeB64Decode_encodeB64Chunks (b3 :: rest) (fun x hx => h x (by simp at hx ⊢; tauto))
    have e0 : b64Val (b64Chr (b0 / 4)) = some (b0 / 4) := b64Val_b64Chr _ (by omega)
    have e1 : b64Val (b64Chr (b0 % 4 * 16 + b1 / 16)) = some (b0 % 4 * 16 + b1 / 16) :=
      b64Val_b64Chr _ (by omega)
    have e2 : b64Val (b64Chr (b1 % 16 * 4 + b2 / 64)) = some (b1 % 16 * 4 + b2 / 64) :=
      b64Val_b64Chr _ (by omega)
    have e3 : b64Val (b64Chr (b2 % 64)) = some (b2 % 64) := b64Val_b64Chr _ (by omega)
    simp only [nodeB64Decode, nodeB64DecodeVals] at ih ⊢
    simp only [encodeB64Chunks, List.takeWhile_cons, b64Chr_ne_eq, if_true]
    simp only [List.filterMap_cons, e0, e1, e2, e3, valsToBytes, List.cons.injEq]
    refine ⟨by omega, by omega, by omega, ?_⟩
    exact ih
  | [b0, b1, b2], h => by
    have h0 : b0 < 256 := h b0 (by simp)
    have h1 : b1 < 256 := h b1 (by simp)
    have h2 : b2 < 256 := h b2 (by simp)
    have e0 : b64Val (b64Chr (b0 / 4)) = some (b0 / 4) := b64Val_b64Chr _ (by omega)
    have e1 : b64Val (b64Chr (b0 % 4 * 16 + b1 / 16)) = some (b0 % 4 * 16 + b1 / 16) :=
      b64Val_b64Chr _ (by omega)
    have e2 : b64Val (b64Chr (b1 % 16 * 4 + b2 / 64)) = some (b1 % 16 * 4 + b2 / 64) :=
      b64Val_b64Chr _ (by omega)
    have e3 : b64Val (b64Chr (b2 % 64)) = some (b2 % 64) := b64Val_b64Chr _ (by omega)
    simp only [encodeB64Chunks, nodeB64Decode, nodeB64DecodeVals, List.takeWhile_cons,
      b64Chr_ne_eq, if_true, List.takeWhile_nil]
    simp only [List.filterMap_cons, e0, e1, e2, e3, List.filterMap_nil, valsToBytes,
      List.cons.injEq, and_true]
    refine ⟨by omega, by omega, by omega⟩

/-- C7: for every byte sequence `b`, `decodeBase64 (encodeBase64 b) = b`. -/
theorem decodeBase64_encodeBase64 (b : Bytes) (h : ∀ x ∈ b, x < 256) :
    decodeBase64 (encodeBase64 b) = .ok b := by
  unfold decodeBase64 encodeBase64
  have : (String.mk (encodeB64Chunks b)).toList = encodeB64Chunks b := rfl
  rw [this, nodeB64Decode_encodeB64Chunks b h]

/-- Witness for C7 on the bytes of "Hi!". -/
theorem decodeBase64_encodeBase64_witness :
    decodeBase64 (encodeBase64 [72, 105, 33]) = .ok [72, 105, 33] :=
  decodeBase64_encodeBase64 [72, 105, 33] (by decide)

/-- C6 counterexample: `decodeBase64` never fails; on input containing `$`
(outside the base64 alphabet) it returns a decoded buffer, not an error. -/
theorem decodeBase64_invalid_char_no_error :
    b64Val '$' = none
    ∧ decodeBase64 "QQ$" = .ok [65]
    ∧ ¬ ∃ e, decodeBase64 "QQ$" = .error e := by
  refine ⟨by decide, by simp only [decodeBase64, Except.ok.injEq]; decide, ?_⟩
  rintro ⟨e, he⟩
  simp [decodeBase64] at he

/-- C6 (amended): `decodeBase64` is total — `Buffer.from(s, "base64")` never
throws for a string argument — and Node's lenient decoder silently skips any
character outside the base64 alphabet (before the first `=`). -/
theorem decodeBase64_total_skips_invalid :
    (∀ s : String, ∃ b, decodeBase64 s = .ok b)
    ∧ ∀ (c : Char) (pre suf : List Char), b64Val c = none → c ≠ '=' → '=' ∉ pre →
        nodeB64Decode (pre ++ c :: suf) = nodeB64Decode (pre ++ suf) := by
  constructor
  · intro s
    exact ⟨nodeB64Decode s.toList, rfl⟩
  · intro c pre suf hc hce hpre
    unfold nodeB64Decode nodeB64DecodeVals
    have hp : ∀ x ∈ pre, (x != '=') = true := by
      intro x hx
      have : x ≠ '=' := fun hxx => hpre (hxx ▸ hx)
      simpa using this
    rw [takeWhile_append_of_forall _ pre (c :: suf) hp,
        takeWhile_append_of_forall _ pre suf hp]
    have hcb : (c != '=') = true := by simpa using hce
    simp only [List.takeWhile_cons, hcb, if_true, List.filterMap_append, List.filterMap_cons, hc]

/-- Witness for C6's amended theorem: skipping `$` between two valid digits. -/
theorem decodeBase64_total_skips_invalid_witness :
    (b64Val '$' = none ∧ '$' ≠ '=' ∧ '=' ∉ ['Q'])
    ∧ nodeB64Decode (['Q'] ++ '$' :: ['Q']) = nodeB64Decode (['Q'] ++ ['Q']) :=
  ⟨⟨by decide, by decide, by decide⟩,
    decodeBase64_total_skips_invalid.2 '$' ['Q'] ['Q'] (by decide) (by decide) (by decide)⟩

/-! ### `formatFilename` (src/commands/parse-json.js:338-344)

`name.toLowerCase().replace(/[^a-z0-9]+/g, "-").replace(/^-|-$/g, "").substring(0, 50)`.
The second regex removes one leading and one trailing hyphen (a `^-` match and a
`-$` match); after run-collapapsing there is at most one of each, so this agrees
with the spec's "leading/trailing hyphens stripped", which is proved below. -/

/-- Characters the regex class `[a-z0-9]` accepts (input is already lower-cased). -/
def isAlnumLower (c : Char) : Bool := ('a' ≤ c && c ≤ 'z') || ('0' ≤ c && c ≤ '9')

/-- The regex step `replace(/[^a-z0-9]+/g, "-")`: each maximal run of non-alphanumeric
characters becomes a single hyphen. -/
def collapseRuns : List Char → List Char
  | [] => []
  | c :: rest =>
    if isAlnumLower c then c :: collapseRuns rest
    else '-' :: collapseRuns (rest.dropWhile (fun x => !isAlnumLower x))
termination_by l => l.length
decreasing_by
  · simp
  · simp only [List.length_cons]
    have := (List.dropWhile_sublist (l := rest) (p := fun x => !isAlnumLower x)).length_le
    omega

theorem collapseRuns_nil : collapseRuns [] = [] := by
  rw [collapseRuns]

theorem collapseRuns_cons_alnum {c : Char} (rest : List Char) (hc : isAlnumLower c = true) :
    collapseRuns (c :: rest) = c :: collapseRuns rest := by
  rw [collapseRuns, if_pos hc]

theorem collapseRuns_cons_other {c : Char} (rest : List Char) (hc : ¬ isAlnumLower c = true) :
    collapseRuns (c :: rest)
      = '-' :: collapseRuns (rest.dropWhile (fun x => !isAlnumLower x)) := by
  rw [collapseRuns, if_neg hc]

/-- The `^-` alternative of `replace(/^-|-$/g, "")`: drop one leading hyphen. -/
def removeLeadingHyphen : List Char → List Char
  | [] => []
  | c :: t => if c = '-' then t else c :: t

/-- The `-$` alternative of `replace(/^-|-$/g, "")`: drop one trailing hyphen. -/
def removeTrailingHyphen : List Char → List Char
  | [] => []
  | [c] => if c = '-' then [] else [c]
  | c :: d :: t => c :: removeTrailingHyphen (d :: t)

/-- JS `String.prototype.toLowerCase` on one character. -/
def jsToLower (c : Char) : Char := c.toLower

/-- Embedding of `formatFilename` (src/commands/parse-json.js:338-344). -/
def formatFilename (s : String) : String :=
  String.mk
    (List.take 50 (removeTrailingHyphen (removeLeadingHyphen
      (collapseRuns (s.toList.map jsToLower)))))

/-- Modelled from the spec: strip all leading hyphens. -/
def dropLeadingHyphens (l : List Char) : List Char := l.dropWhile (fun c => c == '-')

/-- Modelled from the spec: strip all trailing hyphens. -/
def dropTrailingHyphens : List Char → List Char
  | [] => []
  | c :: rest =>
    match dropTrailingHyphens rest with
    | [] => if c = '-' then [] else [c]
    | r => c :: r

/-- Modelled from the spec: "lower-case, non-alphanumeric runs collapsed to single
hyphens, leading/trailing hyphens stripped, truncated to 50 characters" in that
order. -/
def specSlug (s : String) : String :=
  String.mk
    (List.take 50 (dropTrailingHyphens (dropLeadingHyphens
      (collapseRuns (s.toList.map jsToLower)))))

/-- No two adjacent hyphens anywhere in the list. -/
def noAdjHyphens : List Char → Bool
  | a :: b :: t => !(a == '-' && b == '-') && noAdjHyphens (b :: t)
  | _ => true

theorem noAdjHyphens_tail {c : Char} {t : List Char} (h : noAdjHyphens (c :: t) = true) :
    noAdjHyphens t = true := by
  cases t with
  | nil => rfl
  | cons d t' =>
    have := (Bool.and_eq_true _ _).mp h
    exact this.2

theorem noAdjHyphens_cons {c : Char} {l : List Char} (hc : c ≠ '-')
    (hl : noAdjHyphens l = true) : noAdjHyphens (c :: l) = true := by
  cases l with
  | nil => rfl
  | cons d t =>
    simp only [noAdjHyphens, Bool.and_eq_true]
    refine ⟨?_, hl⟩
    simp [hc]

theorem dropWhile_head_false {α : Type} (p : α → Bool) :
    ∀ (l : List α) (d : α) (t : List α), l.dropWhile p = d :: t → p d = false := by
  intro l
  induction l with
  | nil => intro d t h; simp [List.dropWhile] at h
  | cons a l' ih =>
    intro d t h
    by_cases ha : p a = true
    · rw [List.dropWhile_cons, if_pos ha] at h
      exact ih d t h
    · rw [List.dropWhile_cons, if_neg ha] at h
      have hda : d = a := ((List.cons.injEq _ _ _ _).mp h.symm).1
      rw [hda]
      exact Bool.eq_false_iff.mpr ha

theorem collapseRuns_noAdj : ∀ l : List Char, noAdjHyphens (collapseRuns l) = true
  | [] => by rw [collapseRuns_nil]; rfl
  | c :: rest => by
    by_cases hc : isAlnumLower c = true
    · rw [collapseRuns_cons_alnum rest hc]
      have hne : c ≠ '-' := by
        intro h
        rw [h] at hc
        exact absurd hc (by decide)
      exact noAdjHyphens_cons hne (collapseRuns_noAdj rest)
    · rw [collapseRuns_cons_other rest hc]
      cases hd : rest.dropWhile (fun x => !isAlnumLower x) with
      | nil => rw [collapseRuns_nil]; rfl
      | cons d t =>
        have hdal : (!isAlnumLower d) = false := dropWhile_head_false _ rest d t hd
        have hdal' : isAlnumLower d = true := by
          cases hh : isAlnumLower d
          · rw [hh] at hdal; simp at hdal
          · rfl
        have hrec := collapseRuns_noAdj (d :: t)
        rw [collapseRuns_cons_alnum t hdal'] at hrec ⊢
        simp only [noAdjHyphens, Bool.and_eq_true]
        constructor
        · have : d ≠ '-' := by
            intro h
            rw [h] at hdal'
            exact absurd hdal' (by decide)
          simp [this]
        · exact hrec
termination_by l => l.length
decreasing_by
  · simp
  · simp only [List.length_cons]
    have h1 := (List.dropWhile_sublist (l := rest) (p := fun x => !isAlnumLower x)).length_le
    have h2 : (d :: t).length ≤ rest.length := by rw [← hd]; exact h1
    simp only [List.length_cons] at h2
    omega

theorem dropLeading_eq_removeLeading {l : List Char} (h : noAdjHyphens l = true) :
    dropLeadingHyphens l = removeLeadingHyphen l := by
  cases l with
  | nil => rfl
  | cons c t =>
    by_cases hc : c = '-'
    · subst hc
      show List.dropWhile _ _ = _
      rw [List.dropWhile_cons, if_pos (by decide)]
      rw [show removeLeadingHyphen ('-' :: t) = t by rw [removeLeadingHyphen]; simp]
      cases t with
      | nil => rfl
      | cons d t' =>
        have hd : d ≠ '-' := by
          simp only [noAdjHyphens, Bool.and_eq_true] at h
          intro hdd
          rw [hdd] at h
          simp at h
        rw [List.dropWhile_cons, if_neg (by simp [hd])]
    · show List.dropWhile _ _ = _
      rw [List.dropWhile_cons, if_neg (by simp [hc])]
      rw [show removeLeadingHyphen (c :: t) = c :: t by rw [removeLeadingHyphen]; simp [hc]]

theorem removeTrailingHyphen_eq_nil :
    ∀ l : List Char, removeTrailingHyphen l = [] → l = [] ∨ l = ['-']
  | [], _ => Or.inl rfl
  | [c], h => by
    right
    by_cases hc : c = '-'
    · rw [hc]
    · exfalso
      rw [show removeTrailingHyphen [c] = [c] by rw [removeTrailingHyphen]; simp [hc]] at h
      exact List.cons_ne_nil _ _ h
  | c :: d :: t, h => by
    exfalso
    rw [show removeTrailingHyphen (c :: d :: t) = c :: removeTrailingHyphen (d :: t)
      from rfl] at h
    exact List.cons_ne_nil _ _ h

theorem dropTrailingHyphens_cons (c : Char) (rest : List Char) :
    dropTrailingHyphens (c :: rest)
      = match dropTrailingHyphens rest with
        | [] => if c = '-' then [] else [c]
        | r => c :: r := by
  rw [dropTrailingHyphens]

theorem dropTrailing_eq_removeTrailing :
    ∀ {l : List Char}, noAdjHyphens l = true → dropTrailingHyphens l = removeTrailingHyphen l
  | [], _ => rfl
  | [c], _ => by
    rw [dropTrailingHyphens_cons]
    rfl
  | c :: d :: t, h => by
    have ih := dropTrailing_eq_removeTrailing (noAdjHyphens_tail h)
    rw [show removeTrailingHyphen (c :: d :: t) = c :: removeTrailingHyphen (d :: t) from rfl]
    rw [dropTrailingHyphens_cons, ih]
    cases hr : removeTrailingHyphen (d :: t) with
    | nil =>
      rcases removeTrailingHyphen_eq_nil _ hr with h1 | h1
      · exact absurd h1 (List.cons_ne_nil _ _)
      · have hd1 : d = '-' := ((List.cons.injEq _ _ _ _).mp h1).1
        have hc : c ≠ '-' := by
          simp only [noAdjHyphens, Bool.and_eq_true] at h
          intro hcc
          rw [hcc, hd1] at h
          simp at h
        simp [hc]
    | cons r rs => simp

theorem noAdjHyphens_removeLeading {l : List Char} (h : noAdjHyphens l = true) :
    noAdjHyphens (removeLeadingHyphen l) = true := by
  cases l with
  | nil => exact h
  | cons c t =>
    by_cases hc : c = '-'
    · rw [show removeLeadingHyphen (c :: t) = t by rw [removeLeadingHyphen]; simp [hc]]
      exact noAdjHyphens_tail h
    · rw [show removeLeadingHyphen (c :: t) = c :: t by rw [removeLeadingHyphen]; simp [hc]]
      exact h

/-! ### JSON value model

JSON values as produced by `JSON.parse`.  Numbers are modelled as integers (every
numeric value in the repository's inputs and fixtures is an integer; floating
point subtleties play no role in the claims).  `undefined` — the result of
accessing an absent property — is represented by `Option.none` at access sites
(`jsGet`), never as a `Json` value, matching what `JSON.parse` can produce. -/

inductive Json where
  | null
  | bool (b : Bool)
  | num (n : Int)
  | str (s : String)
  | arr (items : List Json)
  | obj (fields : List (String × Json))

/-- First binding of a key in an object's field list. -/
def jsLookup : List (String × Json) → String → Option Json
  | [], _ => none
  | (k, v) :: rest, key => if k = key then some v else jsLookup rest key

/-- JS property access `o.k`; `none` models `undefined` (absent property, or
access on a primitive). -/
def jsGet : Json → String → Option Json
  | .obj fields, k => jsLookup fields k
  | _, _ => none

/-- Property access where `undefined` and `null` are interchangeable (truthiness,
`||` defaults): absent properties collapse to `null`. -/
def jsGetJ (j : Json) (k : String) : Json := (jsGet j k).getD Json.null

/-- JS truthiness of a JSON value. -/
def truthy : Json → Bool
  | .null => false
  | .bool b => b
  | .num n => n != 0
  | .str s => s != ""
  | .arr _ => true
  | .obj _ => true

/-- JS `a || b` restricted to JSON values. -/
def jsOr (a b : Json) : Json := if truthy a then a else b

/-- JS `a || null`. -/
def jsOrNull (a : Json) : Json := if truthy a then a else Json.null

def isArray : Json → Bool
  | .arr _ => true
  | _ => false

def arrItems : Json → List Json
  | .arr xs => xs
  | _ => []

/-- Template-literal stringification (only reached for the `https://${domain}`
interpolation). -/
def jsTemplate : Json → String
  | .str s => s
  | .null => "null"
  | .bool b => if b then "true" else "false"
  | .num n => toString n
  | .obj _ => "[object Object]"
  | .arr _ => ""

/-! ### Record extraction and per-item processing (src/commands/parse-json.js) -/

/-- Embedding of `extractValue` (src/commands/parse-json.js:82-85):
`if (!obj) return null; return obj.Value !== undefined ? obj.Value : obj`.
The argument is `none` when the accessed property was absent (`undefined`). -/
def extractValue (o : Option Json) : Json :=
  match o with
  | none => Json.null
  | some v =>
    if truthy v = false then Json.null
    else
      match jsGet v "Value" with
      | some w => w
      | none => v

/-- The per-field unwrapped data built for each entry of the `Items` array
(src/commands/parse-json.js:88-123). -/
structure NestedData where
  id : Json
  name : Json
  category : Json
  domain : Json
  entityType : Json
  imageUrl : Json
  isSponsored : Json
  originalPrice : Json
  price : Json
  rawHtml : Json
  rawTextContent : Json
  shipping : Json
  timestamp : Json
  ttl : Json
  url : Json

/-- One element of `itemsToProcess`: `{type: "flat"|"nested", data}`. -/
inductive Item where
  | flat (data : Json)
  | nested (data : NestedData)

/-- Field extraction for one entry of the nested `Items` shape
(src/commands/parse-json.js:81-124). -/
def extractNested (item : Json) : NestedData :=
  { category := extractValue (jsGet item "category"),
    domain := extractValue (jsGet item "domain"),
    entityType := extractValue (jsGet item "entity_type"),
    id := extractValue (jsGet item "id"),
    imageUrl := extractValue (jsGet item "imageUrl"),
    isSponsored := extractValue (jsGet item "isSponsored"),
    name := extractValue (jsGet item "name"),
    originalPrice := extractValue (jsGet item "originalPrice"),
    price := extractValue (jsGet item "price"),
    rawHtml := extractValue (jsGet item "rawHtml"),
    rawTextContent := extractValue (jsGet item "rawTextContent"),
    shipping := extractValue (jsGet item "shipping"),
    timestamp := extractValue (jsGet item "timestamp"),
    ttl := extractValue (jsGet item "ttl"),
    url := extractValue (jsGet item "url") }

/-- Outcome of the top-level shape dispatch (src/commands/parse-json.js:76-170). -/
inductive ItemsResult where
  | toProcess (items : List Item)
  | emptyInput
  | malformed

/-- The check `=== null` on a property access result (strict: `undefined` does not match). -/
def isNullOpt : Option Json → Bool
  | some Json.null => true
  | _ => false

/-- Top-level input classification and extraction
(src/commands/parse-json.js:76-170): a truthy non-empty `Items` array is the
nested shape, a non-empty top-level array the flat legacy shape, `Items: null` /
`Items: []` / `[]` the empty-input terminal case, anything else malformed. -/
def itemsToProcess (j : Json) : ItemsResult :=
  let itemsJ := jsGetJ j "Items"
  if truthy itemsJ && isArray itemsJ && decide (0 < (arrItems itemsJ).length) then
    .toProcess ((arrItems itemsJ).map (fun item => Item.nested (extractNested item)))
  else if isArray j && decide (0 < (arrItems j).length) then
    .toProcess ((arrItems j).map Item.flat)
  else if isNullOpt (jsGet j "Items")
      || (isArray itemsJ && decide ((arrItems itemsJ).length = 0))
      || (isArray j && decide ((arrItems j).length = 0)) then
    .emptyInput
  else .malformed

/-- A processed record: the object's key/value list (insertion order) plus the
decompressed `rawHtml` string appended last. -/
structure OutRecord where
  fields : List (String × Json)
  rawHtml : String

/-- The id synthesis `id: data.id || formatFilename(data.name || "Unknown")`; `formatFilename`
on a non-string name throws (`.toLowerCase` is not a function). -/
def synthId (idJ nameJ : Json) : Except String Json :=
  if truthy idJ then .ok idJ
  else
    match jsOr nameJ (Json.str "Unknown") with
    | Json.str s => .ok (Json.str (formatFilename s))
    | _ => .error "name.toLowerCase is not a function"

/-- The decode step `decodeBase64(rawHtml)`: `Buffer.from` requires a string argument. -/
def decodeRawHtml (rawHtmlJ : Json) : Except String Bytes :=
  match rawHtmlJ with
  | Json.str s =>
    match decodeBase64 s with
    | .ok b => .ok b
    | .error e => .error e.message
  | _ => .error "The first argument must be of type string"

/-- Successful outcome of processing one item: the output record and the sizes
fed into the statistics. -/
structure StepSuccess where
  record : OutRecord
  inputBytes : Nat
  outputBytes : Nat

/-- One iteration of the processing loop (src/commands/parse-json.js:199-270):
require `rawHtml`, build the normalized record, base64-decode, decompress.
`decompress` abstracts `await decompressData(decodedData, options)` together with
the final UTF-8 string conversion. -/
def itemStep (decompress : Bytes → Except String String) : Item → Except String StepSuccess
  | Item.flat data =>
    if truthy (jsGetJ data "rawHtml") = false then .error "Item missing required rawHtml field"
    else
      match synthId (jsGetJ data "id") (jsGetJ data "name") with
      | .error e => .error e
      | .ok idJ =>
        match decodeRawHtml (jsGetJ data "rawHtml") with
        | .error e => .error e
        | .ok bytes =>
          match decompress bytes with
          | .error e => .error e
          | .ok html =>
            .ok { record :=
                    { fields :=
                        [("id", idJ),
                         ("name", jsOr (jsGetJ data "name") (Json.str "Unknown")),
                         ("category", jsOrNull (jsGetJ data "category")),
                         ("url", jsOrNull (jsGetJ data "url")),
                         ("imageUrl", jsOrNull (jsGetJ data "imageUrl"))],
                      rawHtml := html },
                  inputBytes := bytes.length,
                  outputBytes := html.length }
  | Item.nested data =>
    if truthy data.rawHtml = false then .error "Item missing required rawHtml field"
    else
      match synthId data.id data.name with
      | .error e => .error e
      | .ok idJ =>
        match decodeRawHtml data.rawHtml with
        | .error e => .error e
        | .ok bytes =>
          match decompress bytes with
          | .error e => .error e
          | .ok html =>
            .ok { record :=
                    { fields :=
                        [("id", idJ),
                         ("name", jsOr data.name (Json.str "Unknown")),
                         ("category", jsOrNull data.category),
                         ("domain", jsOrNull data.domain),
                         ("entityType", jsOrNull data.entityType),
                         ("url", jsOr data.url
                            (if truthy data.domain then
                              Json.str ("https://" ++ jsTemplate data.domain)
                            else Json.null)),
                         ("imageUrl", jsOrNull data.imageUrl),
                         ("price", jsOrNull data.price),
                         ("originalPrice", jsOrNull data.originalPrice),
                         ("shipping", jsOrNull data.shipping),
                         ("isSponsored", data.isSponsored),
                         ("timestamp", jsOrNull data.timestamp),
                         ("ttl", jsOrNull data.ttl),
                         ("rawTextContent", jsOrNull data.rawTextContent)],
                      rawHtml := html },
                  inputBytes := bytes.length,
                  outputBytes := html.length }

/-- The accumulator `stats` (src/commands/parse-json.js:185-191). -/
structure BatchStats where
  totalProcessed : Nat
  totalInputBytes : Nat
  totalOutputBytes : Nat
  successCount : Nat
  errorCount : Nat
deriving Repr, DecidableEq

def initStats : BatchStats :=
  { totalProcessed := 0, totalInputBytes := 0, totalOutputBytes := 0,
    successCount := 0, errorCount := 0 }

/-- The sequential processing loop (src/commands/parse-json.js:196-280): each
item is processed in source order; a success pushes its record and bumps the
success statistics, a caught per-item error bumps `errorCount` and moves on. -/
def processItems {ι : Type} (step : ι → Except String StepSuccess) :
    List ι → List OutRecord × BatchStats
  | [] => ([], initStats)
  | it :: rest =>
    let r := processItems step rest
    match step it with
    | .ok s =>
      (s.record :: r.1,
       { totalProcessed := r.2.totalProcessed + 1,
         totalInputBytes := r.2.totalInputBytes + s.inputBytes,
         totalOutputBytes := r.2.totalOutputBytes + s.outputBytes,
         successCount := r.2.successCount + 1,
         errorCount := r.2.errorCount })
    | .error _ =>
      (r.1,
       { totalProcessed := r.2.totalProcessed + 1,
         totalInputBytes := r.2.totalInputBytes,
         totalOutputBytes := r.2.totalOutputBytes,
         successCount := r.2.successCount,
         errorCount := r.2.errorCount + 1 })

/-- Where the YAML document is written (src/commands/parse-json.js:36-50,
144-153, 286-298). -/
inductive OutDest where
  | stdout
  | file (path : String)

def jsPathJoin (dir file : String) : String := dir ++ "/" ++ file

/-- Destination of the empty-list YAML in the empty-input terminal case. -/
def emptyCaseDest (output : String) : OutDest :=
  if output = "-" then .stdout
  else if output.endsWith ".yml" || output.endsWith ".yaml" then .file output
  else .file (jsPathJoin output "empty-response.yaml")

/-- Destination of the normal items YAML document. -/
def itemsDest (output : String) : OutDest :=
  if output = "-" then .stdout
  else if output.endsWith ".yml" || output.endsWith ".yaml" then .file output
  else .file (jsPathJoin output "items.yaml")

/-- Observable outcome of one `parse-json` run. -/
structure RunResult where
  exitCode : Nat
  written : Option (OutDest × List OutRecord)
  stats : Option BatchStats

/-- The `parse-json` command on already-parsed JSON
(src/commands/parse-json.js:33-331), without the optional `--sample` step
(modelled separately by `sampleItems`): classify the input shape; the empty
terminal case writes an empty list and succeeds; a malformed shape throws and
exits 1; otherwise every item runs through the processing loop and the collected
records are written as one YAML list, exit 0 regardless of per-item errors. -/
def processJsonCommand (decompress : Bytes → Except String String) (output : String)
    (j : Json) : RunResult :=
  match itemsToProcess j with
  | .emptyInput => { exitCode := 0, written := some (emptyCaseDest output, []), stats := none }
  | .malformed => { exitCode := 1, written := none, stats := none }
  | .toProcess items =>
    let r := processItems (itemStep decompress) items
    { exitCode := 0, written := some (itemsDest output, r.1), stats := some r.2 }

/-! ### The legacy parse-json variant (the repository file handling `product.Value`)

The repository also ships an earlier variant of the parse-json command whose
nested-shape extraction locates the product payload one level deeper, under an
entry's `product.Value` sub-object, and emits the reduced record
`{id, name, category, rawHtml}`. -/

def isString : Json → Bool
  | .str _ => true
  | _ => false

/-- One element of the legacy `itemsToProcess`: `{type, data, category}`. -/
inductive LegacyItem where
  | flat (data : Json) (category : Json)
  | nested (data : Json) (category : Json)
  | unknown (data : Json) (category : Json)

/-- Legacy nested-entry extraction (lines 80-92 of the variant):
`category = item.category && item.category.Value ? item.category.Value : null`,
and the payload is `item.product.Value` when `item.product && item.product.Value`. -/
def legacyExtractEntry (item : Json) : LegacyItem :=
  let catJ := jsGetJ item "category"
  let category := if truthy catJ && truthy (jsGetJ catJ "Value") then jsGetJ catJ "Value"
                  else Json.null
  let prodJ := jsGetJ item "product"
  if truthy prodJ && truthy (jsGetJ prodJ "Value") then
    .nested (jsGetJ prodJ "Value") category
  else .unknown item category

inductive LegacyItemsResult where
  | toProcess (items : List LegacyItem)
  | emptyInput
  | malformed

/-- Legacy top-level dispatch (same shape logic as the active file). -/
def legacyItemsToProcess (j : Json) : LegacyItemsResult :=
  let itemsJ := jsGetJ j "Items"
  if truthy itemsJ && isArray itemsJ && decide (0 < (arrItems itemsJ).length) then
    .toProcess ((arrItems itemsJ).map legacyExtractEntry)
  else if isArray j && decide (0 < (arrItems j).length) then
    .toProcess ((arrItems j).map (fun item => LegacyItem.flat item (jsGetJ item "category")))
  else if isNullOpt (jsGet j "Items")
      || (isArray itemsJ && decide ((arrItems itemsJ).length = 0))
      || (isArray j && decide ((arrItems j).length = 0)) then
    .emptyInput
  else .malformed

/-- Legacy id synthesis `id || formatFilename(name)` on an already-resolved name. -/
def legacyId (idJ nameJ : Json) : Except String Json :=
  if truthy idJ then .ok idJ
  else
    match nameJ with
    | Json.str s => .ok (Json.str (formatFilename s))
    | _ => .error "name.toLowerCase is not a function"

/-- Decode, decompress, and push the legacy `{id, name, category, rawHtml}` record. -/
def legacyRecord (decompress : Bytes → Except String String)
    (rawHtmlJ nameJ idJ category : Json) : Except String StepSuccess :=
  match decodeRawHtml rawHtmlJ with
  | .error e => .error e
  | .ok bytes =>
    match decompress bytes with
    | .error e => .error e
    | .ok html =>
      match legacyId idJ nameJ with
      | .error e => .error e
      | .ok idJ2 =>
        .ok { record :=
                { fields := [("id", idJ2), ("name", nameJ), ("category", jsOrNull category)],
                  rawHtml := html },
              inputBytes := bytes.length,
              outputBytes := html.length }

/-- Legacy name resolution: a raw string, a truthy `{Value: ...}` wrapper, or
the default "Unknown". -/
def legacyName (nm : Json) : Json :=
  if isString nm then nm
  else if truthy nm && truthy (jsGetJ nm "Value") then jsGetJ nm "Value"
  else Json.str "Unknown"

/-- Legacy id resolution: a raw string, a truthy `{Value: ...}` wrapper, or
left undefined (falsy). -/
def legacyOptId (idJ : Json) : Json :=
  if isString idJ then idJ
  else if truthy idJ && truthy (jsGetJ idJ "Value") then jsGetJ idJ "Value"
  else Json.null

/-- One iteration of the legacy processing loop (lines 155-236 of the variant):
each scalar is accepted either as a raw string or as a `{Value: ...}` wrapper. -/
def legacyStep (decompress : Bytes → Except String String) :
    LegacyItem → Except String StepSuccess
  | .flat data category =>
    if truthy (jsGetJ data "rawHtml") = false then .error "Item missing required rawHtml field"
    else
      legacyRecord decompress (jsGetJ data "rawHtml")
        (jsOr (jsGetJ data "name") (Json.str "Unknown")) (jsGetJ data "id") category
  | .nested data category =>
    let rh := jsGetJ data "rawHtml"
    if truthy rh && isString rh then
      legacyRecord decompress rh (legacyName (jsGetJ data "name"))
        (legacyOptId (jsGetJ data "id")) category
    else if truthy rh && truthy (jsGetJ rh "Value") then
      legacyRecord decompress (jsGetJ rh "Value") (legacyName (jsGetJ data "name"))
        (legacyOptId (jsGetJ data "id")) category
    else .error "Item missing required rawHtml field"
  | .unknown _ _ => .error "Unknown item type"

/-! ### Theorems about the parse-json pipeline -/

/-- An item lacking the required compressed-payload field: `!data.rawHtml`. -/
def missingRawHtml : Item → Prop
  | Item.flat data => truthy (jsGetJ data "rawHtml") = false
  | Item.nested data => truthy data.rawHtml = false

theorem itemStep_missing (decompress : Bytes → Except String String) (it : Item)
    (h : missingRawHtml it) :
    itemStep decompress it = .error "Item missing required rawHtml field" := by
  cases it with
  | flat data =>
    simp only [missingRawHtml] at h
    simp only [itemStep]
    rw [if_pos h]
  | nested data =>
    simp only [missingRawHtml] at h
    simp only [itemStep]
    rw [if_pos h]

/-- The record an item contributes to the output, if it processes successfully. -/
def okRecord {ι : Type} (step : ι → Except String StepSuccess) (it : ι) : Option OutRecord :=
  match step it with
  | .ok s => some s.record
  | .error _ => none

theorem processItems_all_ok {ι : Type} (step : ι → Except String StepSuccess) :
    ∀ (l : List ι), (∀ x ∈ l, ∃ y, step x = .ok y) →
      (processItems step l).1 = l.filterMap (okRecord step)
      ∧ (processItems step l).2.successCount = l.length
      ∧ (processItems step l).2.errorCount = 0
      ∧ (processItems step l).2.totalProcessed = l.length
  | [], _ => ⟨rfl, rfl, rfl, rfl⟩
  | a :: l, h => by
    obtain ⟨y, hy⟩ := h a (List.mem_cons_self a l)
    have ih := processItems_all_ok step l (fun x hx => h x (List.mem_cons_of_mem a hx))
    refine ⟨?_, ?_, ?_, ?_⟩
    · simp only [processItems, hy, List.filterMap_cons, okRecord]
      rw [ih.1]
    · simp only [processItems, hy, List.length_cons]
      rw [ih.2.1]
    · simp only [processItems, hy]
      rw [ih.2.2.1]
    · simp only [processItems, hy, List.length_cons]
      rw [ih.2.2.2]

/-- C3: in a batch of N items where one item lacks `rawHtml` and every other item
processes successfully, the run ends with N-1 successes and 1 error, the N-1
successful records appear in the output in their original source order, and the
remaining items are still processed (the failure is isolated). -/
theorem parseJson_missing_field_isolation (decompress : Bytes → Except String String) :
    ∀ (pre : List Item) (post : List Item) (bad : Item),
      missingRawHtml bad →
      (∀ x ∈ pre ++ post, ∃ y, itemStep decompress x = .ok y) →
      (processItems (itemStep decompress) (pre ++ bad :: post)).2.successCount
          = pre.length + post.length
      ∧ (processItems (itemStep decompress) (pre ++ bad :: post)).2.errorCount = 1
      ∧ (processItems (itemStep decompress) (pre ++ bad :: post)).2.totalProcessed
          = pre.length + post.length + 1
      ∧ (processItems (itemStep decompress) (pre ++ bad :: post)).1
          = (pre ++ post).filterMap (okRecord (itemStep decompress))
  | [], post, bad, hbad, hok => by
    have hb := itemStep_missing decompress bad hbad
    rw [show ([] : List Item) ++ bad :: post = bad :: post from rfl]
    have hpost := processItems_all_ok (itemStep decompress) post (by simpa using hok)
    simp only [processItems, hb]
    refine ⟨?_, ?_, ?_, ?_⟩
    · rw [hpost.2.1]; simp
    · rw [hpost.2.2.1]
    · rw [hpost.2.2.2]; simp
    · rw [show ([] : List Item) ++ post = post from rfl]
      exact hpost.1
  | a :: pre, post, bad, hbad, hok => by
    obtain ⟨y, hy⟩ := hok a (by simp)
    have ih := parseJson_missing_field_isolation decompress pre post bad hbad
      (fun x hx => hok x (by simp at hx ⊢; tauto))
    rw [show (a :: pre) ++ bad :: post = a :: (pre ++ bad :: post) from rfl]
    simp only [processItems, hy]
    refine ⟨?_, ?_, ?_, ?_⟩
    · rw [ih.1]; simp only [List.length_cons]; omega
    · rw [ih.2.1]
    · rw [ih.2.2.1]; simp only [List.length_cons]; omega
    · rw [show (a :: pre) ++ post = a :: (pre ++ post) from rfl]
      simp only [List.filterMap_cons, okRecord, hy]
      rw [ih.2.2.2]

/-- Witness for C3: three flat items, the middle one lacking `rawHtml`; the run
counts 2 successes and 1 error and outputs the two good records in order. -/
theorem parseJson_missing_field_isolation_witness :
    (processItems
        (itemStep (fun _ => .ok "html"))
        ([Item.flat (Json.obj [("rawHtml", Json.str "QQ=="), ("id", Json.str "a1")])]
          ++ Item.flat (Json.obj [("name", Json.str "broken")])
          :: [Item.flat (Json.obj [("rawHtml", Json.str "QQ=="), ("id", Json.str "a3")])])).2.successCount
        = 2
    ∧ (processItems
        (itemStep (fun _ => .ok "html"))
        ([Item.flat (Json.obj [("rawHtml", Json.str "QQ=="), ("id", Json.str "a1")])]
          ++ Item.flat (Json.obj [("name", Json.str "broken")])
          :: [Item.flat (Json.obj [("rawHtml", Json.str "QQ=="), ("id", Json.str "a3")])])).2.errorCount
        = 1 := by
  have h := parseJson_missing_field_isolation (fun _ => .ok "html")
    [Item.flat (Json.obj [("rawHtml", Json.str "QQ=="), ("id", Json.str "a1")])]
    [Item.flat (Json.obj [("rawHtml", Json.str "QQ=="), ("id", Json.str "a3")])]
    (Item.flat (Json.obj [("name", Json.str "broken")]))
    (by simp [missingRawHtml, jsGetJ, jsGet, jsLookup, truthy])
    (by
      intro x hx
      simp only [List.cons_append, List.nil_append, List.mem_cons, List.not_mem_nil,
        or_false] at hx
      rcases hx with h1 | h1 <;> exact h1 ▸ ⟨_, rfl⟩)
  exact ⟨h.1, h.2.1⟩

/-- C4: `Items: null`, `Items: []` and a top-level `[]` are all the empty-input
terminal case — `parse-json` writes an empty-list YAML document to the resolved
destination and finishes with exit code 0, never an error. -/
theorem parseJson_empty_input_ok (decompress : Bytes → Except String String)
    (output : String) :
    processJsonCommand decompress output (Json.obj [("Items", Json.null)])
        = { exitCode := 0, written := some (emptyCaseDest output, []), stats := none }
    ∧ processJsonCommand decompress output (Json.obj [("Items", Json.arr [])])
        = { exitCode := 0, written := some (emptyCaseDest output, []), stats := none }
    ∧ processJsonCommand decompress output (Json.arr [])
        = { exitCode := 0, written := some (emptyCaseDest output, []), stats := none } :=
  ⟨rfl, rfl, rfl⟩

/-- The repository's own new-format test fixture: the product payload sits under
`entry.product.Value`, with per-field `{Value: ...}` wrappers
(src/test/parse-json.test.js, `createNewFormatTestJson`).  The base64 payload
stands in for the test's deflate blob; the decompressor is abstract here, and the
active pipeline rejects the entry before ever decoding it. -/
def newFormatFixture : Json :=
  Json.obj
    [("Items", Json.arr
        [Json.obj
          [("category", Json.obj [("Value", Json.str "test-category")]),
           ("product", Json.obj [("Value", Json.obj
              [("rawHtml", Json.obj [("Value", Json.str "eJw=")]),
               ("name", Json.obj [("Value", Json.str "Test Product 1")]),
               ("id", Json.obj [("Value", Json.str "test-id-1")])])])]]),
     ("Count", Json.num 1),
     ("ScannedCount", Json.num 1)]

/-- A decompressor that succeeds with the fixture's HTML. -/
def testDecompress : Bytes → Except String String :=
  fun _ => .ok "<h1>Test HTML</h1><p>This is a test</p>"

/-- The legacy variant's processing of the fixture's `Items`. -/
def legacyRunOnFixture : List OutRecord × BatchStats :=
  match legacyItemsToProcess newFormatFixture with
  | .toProcess items => processItems (legacyStep testDecompress) items
  | _ => ([], initStats)

/-- C8 (code bug): on the repository's own new-format test fixture, the active
extraction never looks under `product.Value`: the entry's `rawHtml` unwraps to
`null`, the item is counted as an error and no record is output — while the
legacy variant extracts the very same entry into the normalized record the test
asserts (`id: test-id-1`, `name: Test Product 1`, `category: test-category`,
decompressed HTML). -/
theorem parseJson_product_value_regression :
    (processJsonCommand testDecompress "-" newFormatFixture).written
        = some (OutDest.stdout, [])
    ∧ (processJsonCommand testDecompress "-" newFormatFixture).stats
        = some { totalProcessed := 1, totalInputBytes := 0, totalOutputBytes := 0,
                 successCount := 0, errorCount := 1 }
    ∧ legacyRunOnFixture
        = ([{ fields := [("id", Json.str "test-id-1"), ("name", Json.str "Test Product 1"),
                         ("category", Json.str "test-category")],
              rawHtml := "<h1>Test HTML</h1><p>This is a test</p>" }],
           { totalProcessed := 1, totalInputBytes := 2, totalOutputBytes := 39,
             successCount := 1, errorCount := 0 }) :=
  ⟨rfl, rfl, rfl⟩

/-- C9: the default id synthesized from a (truthy) name when `id` is absent is
exactly the spec's transformation — lower-case, collapse each maximal
non-alphanumeric run to one hyphen, strip leading/trailing hyphens, truncate to
50 — in that order (`formatFilename` agrees with the spec-modelled `specSlug`). -/
theorem formatFilename_matches_spec (s : String) :
    formatFilename s = specSlug s
    ∧ (truthy (Json.str s) = true →
        synthId Json.null (Json.str s) = Except.ok (Json.str (specSlug s))) := by
  have hC := collapseRuns_noAdj (s.toList.map jsToLower)
  have h1 : formatFilename s = specSlug s := by
    unfold formatFilename specSlug
    rw [dropLeading_eq_removeLeading hC,
        dropTrailing_eq_removeTrailing (noAdjHyphens_removeLeading hC)]
  refine ⟨h1, ?_⟩
  intro ht
  unfold synthId
  rw [if_neg (by simp [truthy])]
  have h2 : jsOr (Json.str s) (Json.str "Unknown") = Json.str s := by
    unfold jsOr
    rw [if_pos ht]
  rw [h2]
  show Except.ok (Json.str (formatFilename s)) = _
  rw [h1]

/-- Witness for C9 at the concrete name "Hello, World!". -/
theorem formatFilename_matches_spec_witness :
    truthy (Json.str "Hello, World!") = true
    ∧ synthId Json.null (Json.str "Hello, World!")
        = Except.ok (Json.str (specSlug "Hello, World!")) :=
  ⟨by decide, (formatFilename_matches_spec "Hello, World!").2 (by decide)⟩

/-! ### `sampleItems` (src/commands/parse-json.js:396-420)

A truncated Fisher–Yates shuffle on a copy of the array: for each step `i` a random
index in `[i, length)` is chosen, positions `i` and that index are swapped, and
the element now at `i` is pushed onto the sample.  `Math.floor(Math.random() *
(length - i))` is modelled by an arbitrary choice sequence `r : Nat → Nat` taken
modulo `length - i`, which ranges over exactly the same values. -/

/-- Swap two positions of a list (the three-assignment swap in the source). -/
def listSwap {α : Type} [Inhabited α] (l : List α) (i j : Nat) : List α :=
  (l.set i (l.getD j default)).set j (l.getD i default)

/-- The sampling loop: at step `i` with `rem` picks remaining, swap position `i`
with the randomly chosen position and push the element at `i`. -/
def sampleGo {α : Type} [Inhabited α] (r : Nat → Nat) : Nat → Nat → List α → List α
  | _, 0, _ => []
  | i, rem+1, arr =>
    let j := i + r i % (arr.length - i)
    let arr2 := listSwap arr i j
    arr2.getD i default :: sampleGo r (i+1) rem arr2

/-- Embedding of `sampleItems` (src/commands/parse-json.js:396-420): all items unchanged when
the sample size reaches the list's length, otherwise the truncated shuffle. -/
def sampleItems {α : Type} [Inhabited α] (items : List α) (sampleSize : Nat)
    (r : Nat → Nat) : List α :=
  if items.length ≤ sampleSize then items
  else sampleGo r 0 sampleSize items

theorem getD_def_of_lt {α : Type} [Inhabited α] (l : List α) (n : Nat) (h : n < l.length) :
    l.getD n default = l[n] := by
  rw [List.getD_eq_getElem?_getD, List.getElem?_eq_getElem h]
  rfl

theorem take_set_of_le {α : Type} (a : α) {n m : Nat} (l : List α) (h : m ≤ n) :
    (l.set n a).take m = l.take m := by
  apply List.ext_getElem?
  intro i
  rw [List.getElem?_take, List.getElem?_take]
  split
  · next h2 => rw [List.getElem?_set_ne (by omega)]
  · rfl

theorem cons_get_set_perm {α : Type} :
    ∀ (t : List α) (k : Nat) (hk : k < t.length) (a : α),
      List.Perm (t[k] :: t.set k a) (a :: t)
  | b :: t2, 0, _, a => by
    simp only [List.getElem_cons_zero, List.set_cons_zero]
    exact List.Perm.swap a b t2
  | b :: t2, k+1, hk, a => by
    simp only [List.getElem_cons_succ, List.set_cons_succ]
    have hk2 : k < t2.length := by simpa using hk
    have ih := cons_get_set_perm t2 k hk2 a
    exact List.Perm.trans (List.Perm.swap b (t2[k]) (t2.set k a))
      (List.Perm.trans (List.Perm.cons b ih) (List.Perm.swap a b t2))

theorem set_set_swap_perm {α : Type} [Inhabited α] :
    ∀ (l : List α) (i j : Nat), i < l.length → j < l.length →
      List.Perm ((l.set i (l.getD j default)).set j (l.getD i default)) l
  | a :: t, 0, 0, _, _ => by
    simp only [List.getD_cons_zero, List.set_cons_zero]
    exact List.Perm.refl _
  | a :: t, 0, j+1, h0, hj => by
    simp only [List.getD_cons_zero, List.getD_cons_succ, List.set_cons_zero, List.set_cons_succ]
    have hj2 : j < t.length := by simpa using hj
    rw [getD_def_of_lt t j hj2]
    exact cons_get_set_perm t j hj2 a
  | a :: t, i+1, 0, hi, h0 => by
    simp only [List.getD_cons_zero, List.getD_cons_succ, List.set_cons_zero, List.set_cons_succ]
    have hi2 : i < t.length := by simpa using hi
    rw [getD_def_of_lt t i hi2]
    exact cons_get_set_perm t i hi2 a
  | a :: t, i+1, j+1, hi, hj => by
    simp only [List.getD_cons_succ, List.set_cons_succ]
    exact List.Perm.cons a
      (set_set_swap_perm t i j (by simpa using hi) (by simpa using hj))

theorem listSwap_perm {α : Type} [Inhabited α] (l : List α) (i j : Nat)
    (hi : i < l.length) (hj : j < l.length) : List.Perm (listSwap l i j) l :=
  set_set_swap_perm l i j hi hj

theorem listSwap_length {α : Type} [Inhabited α] (l : List α) (i j : Nat) :
    (listSwap l i j).length = l.length := by
  simp [listSwap]

theorem listSwap_take {α : Type} [Inhabited α] (l : List α) (i j : Nat) (hij : i ≤ j) :
    (listSwap l i j).take i = l.take i := by
  unfold listSwap
  rw [take_set_of_le _ _ hij, take_set_of_le _ _ (Nat.le_refl i)]

theorem listSwap_head {α : Type} [Inhabited α] (l : List α) (k : Nat)
    (h0 : 0 < l.length) (hk : k < l.length) :
    (listSwap l 0 k).getD 0 default = l.getD k default := by
  have hlen : (listSwap l 0 k).length = l.length := listSwap_length l 0 k
  rw [getD_def_of_lt _ 0 (by omega), getD_def_of_lt _ k hk]
  unfold listSwap
  by_cases hk0 : k = 0
  · subst hk0
    rw [List.getElem_set_self]
    exact getD_def_of_lt l 0 h0
  · rw [List.getElem_set_ne (by omega)]
    rw [List.getElem_set_self]
    exact getD_def_of_lt l k hk

theorem sampleGo_spec {α : Type} [Inhabited α] (r : Nat → Nat) :
    ∀ (rem i : Nat) (arr : List α), i + rem ≤ arr.length →
      ∃ rest, List.Perm (sampleGo r i rem arr ++ rest) (arr.drop i)
        ∧ (sampleGo r i rem arr).length = rem
  | 0, i, arr, _ => ⟨arr.drop i, by simp [sampleGo]⟩
  | rem+1, i, arr, h => by
    have hi : i < arr.length := by omega
    have hj : i + r i % (arr.length - i) < arr.length := by
      have := Nat.mod_lt (r i) (y := arr.length - i) (by omega)
      omega
    have hperm := listSwap_perm arr i (i + r i % (arr.length - i)) hi hj
    have hlen := listSwap_length arr i (i + r i % (arr.length - i))
    have htake := listSwap_take arr i (i + r i % (arr.length - i)) (Nat.le_add_right _ _)
    have hi2 : i < (listSwap arr i (i + r i % (arr.length - i))).length := by
      rw [hlen]; exact hi
    have hdropperm :
        List.Perm ((listSwap arr i (i + r i % (arr.length - i))).drop i) (arr.drop i) := by
      have h3 : List.Perm
          ((listSwap arr i (i + r i % (arr.length - i))).take i
            ++ (listSwap arr i (i + r i % (arr.length - i))).drop i)
          (arr.take i ++ arr.drop i) := by
        rw [List.take_append_drop, List.take_append_drop]
        exact hperm
      rw [htake] at h3
      exact (List.perm_append_left_iff _).mp h3
    obtain ⟨rest, hrest, hlen2⟩ :=
      sampleGo_spec r rem (i+1) (listSwap arr i (i + r i % (arr.length - i)))
        (by rw [hlen]; omega)
    refine ⟨rest, ?_, ?_⟩
    · simp only [sampleGo]
      rw [List.cons_append]
      refine List.Perm.trans (List.Perm.cons _ hrest) ?_
      rw [getD_def_of_lt _ i hi2, ← List.drop_eq_getElem_cons hi2]
      exact hdropperm
    · simp only [sampleGo, List.length_cons, hlen2]

/-- C5: for a sample size below the list length, `sampleItems` returns exactly
that many records, each a member of the original list, pairwise distinct when the
originals are (the truncated Fisher–Yates shuffle draws from distinct positions);
every record has nonzero selection probability (a choice sequence selecting it
exists); and a sample size reaching the length returns the whole list unchanged
in its original order.  The pure embedding leaves `items` itself untouched, as
the source operates on a copy. -/
theorem sampleItems_spec {α : Type} [Inhabited α] (items : List α) (n : Nat) (r : Nat → Nat)
    (h : n < items.length) :
    (sampleItems items n r).length = n
    ∧ (∀ x ∈ sampleItems items n r, x ∈ items)
    ∧ (items.Nodup → (sampleItems items n r).Nodup)
    ∧ (∀ m, items.length ≤ m → sampleItems items m r = items)
    ∧ (0 < n → ∀ k, k < items.length →
        ∃ rr : Nat → Nat, items.getD k default ∈ sampleItems items n rr) := by
  have hcond : ¬ items.length ≤ n := by omega
  obtain ⟨rest, hperm, hlen⟩ := sampleGo_spec r n 0 items (by omega)
  rw [List.drop_zero] at hperm
  have hgo : sampleItems items n r = sampleGo r 0 n items := by
    unfold sampleItems
    rw [if_neg hcond]
  refine ⟨?_, ?_, ?_, ?_, ?_⟩
  · rw [hgo]; exact hlen
  · intro x hx
    rw [hgo] at hx
    exact hperm.mem_iff.mp (List.mem_append_left rest hx)
  · intro hnd
    rw [hgo]
    have : (sampleGo r 0 n items ++ rest).Nodup := (hperm.nodup_iff).mpr hnd
    exact this.sublist (List.sublist_append_left _ _)
  · intro m hm
    unfold sampleItems
    rw [if_pos hm]
  · intro hn k hk
    refine ⟨fun _ => k, ?_⟩
    unfold sampleItems
    rw [if_neg hcond]
    cases n with
    | zero => omega
    | succ rem =>
      simp only [sampleGo]
      have hk2 : 0 + k % (items.length - 0) = k := by
        rw [Nat.zero_add, Nat.sub_zero, Nat.mod_eq_of_lt hk]
      rw [hk2, listSwap_head items k (by omega) hk]
      exact List.mem_cons_self _ _

/-- Witness for C5 on `[10, 20, 30]` with sample size 2. -/
theorem sampleItems_spec_witness :
    (sampleItems [10, 20, 30] 2 (fun _ => 0)).length = 2
    ∧ sampleItems [10, 20, 30] 5 (fun _ => 0) = [10, 20, 30]
    ∧ ∃ rr : Nat → Nat, (30 : Nat) ∈ sampleItems [10, 20, 30] 2 rr := by
  have h := sampleItems_spec [10, 20, 30] 2 (fun _ => 0) (by decide)
  exact ⟨h.1, h.2.2.2.1 5 (by decide), h.2.2.2.2 (by decide) 2 (by decide)⟩

end Noble
